import Mathlib

/-!
Verification of the resolution-ordering and search-guidance engine
(`src/pip/_internal/resolution/resolvelib/provider.py`): the
`_OrderedStructure` strict-ordering DAG utility and the `PipProvider`
policy methods (`get_preference`, `find_matches`, `is_backtrack_cause`,
`unpin_requirement`), shallowly embedded in Lean.

Python dictionaries are modelled as association lists (insertion order,
unique keys) or, for the known-depth `defaultdict(lambda: math.inf)`
table, as a total function `String → ℕ∞` (an observationally faithful
model because the provider never tests membership of that table, only
reads with default `inf` and writes).  Python sets are modelled as
insertion-ordered duplicate-free lists (for the ordering structure) or
as `Finset` (for `unpin_requirement`, whose result is order-irrelevant).
Floating point depths only ever take values in `ℕ ∪ \x7b∞\x7d`
(`0.0`, `x + 1.0`, `math.inf`), so they are modelled by `ℕ∞`.
-/

/-- PEP 440 version-specifier comparison operators.  Modelled from the
spec: the vendored `packaging.specifiers` module that parses specifier
strings is not part of this slice; per PEP 440 a parsed `Specifier` can
carry exactly one of the eight operators below.  `Op.str` gives the
operator text exposed as `Specifier.operator` in Python. -/
inductive Op
  | eq
  | ne
  | le
  | ge
  | lt
  | gt
  | compatible
  | arbitraryEq
deriving DecidableEq, Repr

/-- The operator's source text (the value of `Specifier.operator`). -/
def Op.str : Op → String
  | .eq => "=="
  | .ne => "!="
  | .le => "<="
  | .ge => ">="
  | .lt => "<"
  | .gt => ">"
  | .compatible => "~="
  | .arbitraryEq => "==="

/-- One parsed version specifier, e.g. `==1.0`: an operator plus a
version text.  Only the operator is consulted by the provider. -/
structure Specifier where
  operator : Op
  version : String
deriving DecidableEq, Repr

/-- Modelled from the spec: the install-intent record
(`InstallRequirement`) behind a specifier-range requirement; the
provider only reads its `specifier` set (`ireq.specifier`), modelled as
the list of its specifiers. -/
structure InstallRequirement where
  specifier : List Specifier
deriving DecidableEq, Repr

/-- A candidate; the provider reads only its `name`. -/
structure Candidate where
  name : String
deriving DecidableEq, Repr

/-- The distinguished Requires-Python identifier.  Modelled from the
spec: `candidates.py` (defining `REQUIRES_PYTHON_IDENTIFIER`) is not in
this slice; the spec calls it "the distinguished Requires-Python
identifier", a singleton identifier distinct from package names. -/
def REQUIRES_PYTHON_IDENTIFIER : String := "<Python from Requires-Python>"

/-- Modelled from the spec: the requirement variants of
`requirements.py` (not in this slice).  Per the spec there are three
variants: Explicit (pins one already-known candidate), Specifier (a
name plus a version-range specifier set, exposing a raw `name`, a
canonical `project_name` and the underlying `install_requirement`),
and Requires-Python (a specifier set over the interpreter version). -/
inductive Requirement
  | explicit (candidate : Candidate)
  | specifier (name : String) (projectName : String)
      (installRequirement : InstallRequirement)
  | requiresPython (specifierSet : List Specifier)
deriving DecidableEq, Repr

/-- `Requirement.name`: the identifying name of the requirement
(modelled from the spec: each variant exposes its identifying name; an
explicit requirement is named after its candidate, Requires-Python
after the distinguished identifier). -/
def Requirement.name : Requirement → String
  | .explicit c => c.name
  | .specifier n _ _ => n
  | .requiresPython _ => REQUIRES_PYTHON_IDENTIFIER

/-- `Requirement.project_name`: the canonical project name (modelled
from the spec; only the specifier variant's project name is ever read,
by `unpin_requirement`). -/
def Requirement.projectName : Requirement → String
  | .explicit c => c.name
  | .specifier _ pn _ => pn
  | .requiresPython _ => REQUIRES_PYTHON_IDENTIFIER

/-- `Requirement.get_candidate_lookup()`: modelled from the spec — "a
lookup returning either a concrete candidate or an underlying
install-intent record".  The explicit variant yields its candidate, the
specifier variant its install requirement, Requires-Python neither. -/
def Requirement.getCandidateLookup :
    Requirement → Option Candidate × Option InstallRequirement
  | .explicit c => (some c, none)
  | .specifier _ _ ir => (none, some ir)
  | .requiresPython _ => (none, none)

/-- `PreferenceInformation`: a (requirement, optional parent candidate)
pair; the parent is `None` for root/user-specified requirements. -/
structure PreferenceInformation where
  requirement : Requirement
  parent : Option Candidate
deriving DecidableEq, Repr

/-- First-match association-list lookup, modelling a Python `dict`
lookup (`mapping[key]` / `mapping.get(key)`); keys are unique in every
dict we model, so first-match agrees with the dict. -/
def lookupStr {V : Type} : List (String × V) → String → Option V
  | [], _ => none
  | (k, v) :: rest, key => if k = key then some v else lookupStr rest key

/-- Scan for the first `[`: `none` when absent, else the characters
before it and after it. -/
def partitionCore (acc : List Char) :
    List Char → Option (List Char × List Char)
  | [] => none
  | c :: rest =>
      if c = '[' then some (acc.reverse, rest)
      else partitionCore (c :: acc) rest

/-- `identifier.partition("[")`: split at the first `[`, returning
(before, separator-if-found, after); the whole string and two empty
parts when `[` does not occur. -/
def partitionBracket (s : String) : String × String × String :=
  match partitionCore [] s.toList with
  | none => (s, "", "")
  | some (before, after) => (⟨before⟩, "[", ⟨after⟩)

/-- `_get_with_identifier`: look a resolver identifier up in a mapping
keyed by package name; fall back to the extras-stripped base name when
the identifier itself is not a key. -/
def getWithIdentifier {V : Type} (mapping : List (String × V))
    (identifier : String) : Option V :=
  match lookupStr mapping identifier with
  | some v => some v
  | none =>
      let parts := partitionBracket identifier
      if parts.2.1 = "[" then
        match lookupStr mapping parts.1 with
        | some v => some v
        | none => none
      else none

/-- The operators collected by `get_preference`: for every requirement
information entry, take the install-requirement half of its candidate
lookup, drop the `None`s, and concatenate each one's specifier
operators. -/
def operatorsOf (info : List PreferenceInformation) : List Op :=
  ((info.map fun i => i.requirement.getCandidateLookup.2).filterMap id).flatMap
    fun ireq => ireq.specifier.map Specifier.operator

/-- `candidate` as computed by `get_preference`: with information,
`zip(*lookups)` makes it the tuple of the candidate halves of the
lookups (a tuple, even when every element is `None`); without
information it is `None`. -/
def candidateTupleOf (info : List PreferenceInformation) :
    Option (List (Option Candidate)) :=
  if !info.isEmpty then
    some (info.map fun i => i.requirement.getCandidateLookup.1)
  else none

/-- `direct = candidate is not None`. -/
def directOf (info : List PreferenceInformation) : Bool :=
  (candidateTupleOf info).isSome

/-- `pinned = any(op[:2] == "==" for op in operators)`. -/
def pinnedOf (info : List PreferenceInformation) : Bool :=
  (operatorsOf info).any fun op => (Op.str op).take 2 == "=="

/-- `unfree = bool(operators)`. -/
def unfreeOf (info : List PreferenceInformation) : Bool :=
  !(operatorsOf info).isEmpty

/-- The depth contributed by one information entry's parent: the
known-depth table at the parent's name, or `0.0` for a `None` parent
(root requirement). -/
def parentDepth (knownDepths : String → ℕ∞)
    (i : PreferenceInformation) : ℕ∞ :=
  match i.parent with
  | some p => knownDepths p.name
  | none => 0

/-- `inferred_depth`: `1.0` for a user-requested identifier, else
`min(parent depths) + 1.0` when information exists, else `math.inf`. -/
def inferredDepthOf (userRequested : List (String × Nat))
    (knownDepths : String → ℕ∞) (identifier : String)
    (info : List PreferenceInformation) : ℕ∞ :=
  match lookupStr userRequested identifier with
  | some _ => 1
  | none =>
      if !info.isEmpty then
        ((info.map (parentDepth knownDepths)).foldr min ⊤) + 1
      else ⊤

/-- `requested_order = self._user_requested.get(identifier, math.inf)`. -/
def requestedOrderOf (userRequested : List (String × Nat))
    (identifier : String) : ℕ∞ :=
  match lookupStr userRequested identifier with
  | some n => (n : ℕ∞)
  | none => ⊤

/-- `PipProvider.is_backtrack_cause`: the identifier equals some
cause's requirement name, or some cause's parent's name. -/
def isBacktrackCause (identifier : String)
    (backtrackCauses : List PreferenceInformation) : Bool :=
  backtrackCauses.any fun cause =>
    identifier == cause.requirement.name ||
      match cause.parent with
      | some p => identifier == p.name
      | none => false

/-- One component of the heterogeneous preference key tuple returned
by `get_preference` (a Python tuple of bools, numbers and a string). -/
inductive PrefAtom
  | b (v : Bool)
  | n (v : ℕ∞)
  | s (v : String)
deriving DecidableEq

/-- `PipProvider.get_preference`, embedded as a pure function of the
provider state it reads (`_user_requested`, `_known_depths`) and its
arguments; returns the preference key together with the updated
known-depth table (its single side effect).  The `resolutions` and
`candidates` arguments of the Python method are unused by its body and
are omitted.  The Python code computes `requested_order` twice (once
via `[]`/`KeyError`, once via `.get`) with the same result; it is
computed once here. -/
def getPreference (userRequested : List (String × Nat))
    (knownDepths : String → ℕ∞) (identifier : String)
    (info : List PreferenceInformation)
    (backtrackCauses : List PreferenceInformation) :
    List PrefAtom × (String → ℕ∞) :=
  let direct := directOf info
  let pinned := pinnedOf info
  let unfree := unfreeOf info
  let inferredDepth := inferredDepthOf userRequested knownDepths identifier info
  let knownDepths' := Function.update knownDepths identifier inferredDepth
  let requestedOrder := requestedOrderOf userRequested identifier
  let requiresPython := identifier == REQUIRES_PYTHON_IDENTIFIER
  let backtrackCause := isBacktrackCause identifier backtrackCauses
  ([.b (!requiresPython), .b (!direct), .b (!pinned), .b (!backtrackCause),
    .n inferredDepth, .n requestedOrder, .b (!unfree), .s identifier],
   knownDepths')

/-- A user-supplied constraint: a specifier set bound to a name, with
`Constraint.empty` as the distinguished unconstrained value (modelled
from the spec; `base.py` is not in this slice). -/
structure Constraint where
  specifier : List Specifier
deriving DecidableEq, Repr

/-- `Constraint.empty()`. -/
def Constraint.empty : Constraint := ⟨[]⟩

/-- `_eligible_for_upgrade` (the inner helper of
`PipProvider.find_matches`): strategy `"eager"` always allows upgrade;
`"only-if-needed"` allows it exactly when the identifier is found in
the user-requested mapping via `_get_with_identifier` (the looked-up
order values are integers, never `None`, so `user_order is not None`
is exactly lookup success); any other strategy disallows upgrade. -/
def eligibleForUpgrade (upgradeStrategy : String)
    (userRequested : List (String × Nat)) (identifier : String) : Bool :=
  if upgradeStrategy = "eager" then true
  else if upgradeStrategy = "only-if-needed" then
    (getWithIdentifier userRequested identifier).isSome
  else false

/-- The call `find_matches` makes into the external candidate factory:
the resolved constraint and the `prefers_installed` flag (the factory
itself is an external collaborator; its invocation is the observable
behaviour of `find_matches`). -/
structure FactoryCall where
  identifier : String
  constraint : Constraint
  prefersInstalled : Bool
deriving DecidableEq, Repr

/-- `PipProvider.find_matches`, embedded as the factory call it
delegates to: the constraint is resolved by `_get_with_identifier`
over `_constraints` with `Constraint.empty()` as default, and
`prefers_installed` is the negation of upgrade eligibility.  The
`requirements` and `incompatibilities` arguments are passed through to
the factory unchanged and are omitted here. -/
def findMatches (upgradeStrategy : String)
    (userRequested : List (String × Nat))
    (constraints : List (String × Constraint))
    (identifier : String) : FactoryCall :=
  let constraint :=
    (getWithIdentifier constraints identifier).getD Constraint.empty
  { identifier := identifier
    constraint := constraint
    prefersInstalled :=
      !(eligibleForUpgrade upgradeStrategy userRequested identifier) }

/-- The `upper_bounded` set accumulated by `unpin_requirement`: for
each backtrack cause whose requirement is a `SpecifierRequirement`, if
any of its install requirement's specifiers has operator `<` or `<=`,
add both the requirement's name and its canonical project name.  (The
Python loop `break`s after the first such specifier; since set
insertion is idempotent this equals the `any` formulation.) -/
def upperBoundedOf (backtrackCauses : List PreferenceInformation) :
    Finset String :=
  backtrackCauses.foldl
    (fun acc cause =>
      match cause.requirement with
      | .specifier n pn ir =>
          if ir.specifier.any
              (fun sp => Op.str sp.operator == "<" || Op.str sp.operator == "<=")
          then insert n (insert pn acc)
          else acc
      | _ => acc)
    ∅

/-- `PipProvider.unpin_requirement`: empty when there are no backtrack
causes; otherwise the upper-bounded names minus the caller-supplied
identifiers, or empty when either set degenerates.  The unused
`resolutions`, `candidates` and `information` arguments are omitted. -/
def unpinRequirement (identifiers : List String)
    (backtrackCauses : List PreferenceInformation) : Finset String :=
  if backtrackCauses.isEmpty then ∅
  else
    let upperBounded := upperBoundedOf backtrackCauses
    if upperBounded = ∅ then ∅
    else
      let requirementsToUnpin := upperBounded \ identifiers.toFinset
      if requirementsToUnpin ≠ ∅ then requirementsToUnpin else ∅

section OrderedStructureModel

variable {α : Type} [DecidableEq α]

/-- Python `set.add`, on an insertion-ordered duplicate-free list. -/
def setAdd (l : List α) (x : α) : List α :=
  if x ∈ l then l else l ++ [x]

/-- `self._graph.get(src, [])`: the successor list of `src`, empty when
`src` is not a key (first-match lookup; keys are unique). -/
def alistGetD : List (α × List α) → α → List α
  | [], _ => []
  | (k, vs) :: rest, x => if k = x then vs else alistGetD rest x

/-- `self._graph.setdefault(a, set()).add(b)`: add `b` to `a`'s
successor set, creating the entry when absent. -/
def graphAddSucc : List (α × List α) → α → α → List (α × List α)
  | [], a, b => [(a, [b])]
  | (k, vs) :: rest, a, b =>
      if k = a then (k, setAdd vs b) :: rest
      else (k, vs) :: graphAddSucc rest a b

/-- `self._graph.setdefault(b, set())`: register `b` with an empty
successor set when absent. -/
def graphSetdefault (g : List (α × List α)) (b : α) : List (α × List α) :=
  if b ∈ g.map Prod.fst then g else g ++ [(b, [])]

/-- `_OrderedStructure`: the successor-set graph (`self._graph`, an
insertion-ordered dict with set values) and the node set
(`self._nodes`). -/
structure OrderedStructure (α : Type) where
  graph : List (α × List α)
  nodes : List α
deriving DecidableEq

/-- A fresh `_OrderedStructure()`. -/
def emptyOS : OrderedStructure α := ⟨[], []⟩

/-- The edge relation of a graph: `y` is in `x`'s successor set. -/
def EdgeG (g : List (α × List α)) (x y : α) : Prop :=
  y ∈ alistGetD g x

instance (g : List (α × List α)) (x y : α) : Decidable (EdgeG g x y) :=
  inferInstanceAs (Decidable (y ∈ alistGetD g x))

/-- `_OrderedStructure._has_path`, a depth-first search from `src`
toward `dest` sharing one `visited` set: for each unprocessed neighbor,
succeed if it is `dest`, otherwise recurse when unvisited, threading
`visited` through.  Recursion is bounded by explicit fuel (the Python
recursion terminates because `visited` grows; fuel
`graph.length + 1` is proved sufficient where its exactness matters). -/
def hasPathAux (g : List (α × List α)) (dest : α) :
    Nat → α → List α → Bool × List α
  | 0, _, visited => (false, visited)
  | fuel + 1, src, visited =>
      (alistGetD g src).foldl
        (fun acc neighbor =>
          if acc.1 then acc
          else if neighbor = dest then (true, acc.2)
          else if neighbor ∈ acc.2 then acc
          else hasPathAux g dest fuel neighbor acc.2)
        (false, src :: visited)

/-- The body of `_has_path`'s neighbor loop, as a fold step at the
given remaining fuel (named for use in proofs; `hasPathAux` at
`fuel + 1` folds exactly this step over the neighbor list). -/
def hasPathStep (g : List (α × List α)) (dest : α) (fuel : Nat)
    (acc : Bool × List α) (neighbor : α) : Bool × List α :=
  if acc.1 then acc
  else if neighbor = dest then (true, acc.2)
  else if neighbor ∈ acc.2 then acc
  else hasPathAux g dest fuel neighbor acc.2

/-- `self._has_path(src, dest)` with a fresh `visited`. -/
def hasPath (s : OrderedStructure α) (src dest : α) : Bool :=
  (hasPathAux s.graph dest (s.graph.length + 1) src []).1

/-- `_OrderedStructure.add_relation(a, b)`: reject (raising
`ValueError`, leaving the structure untouched — the Python check
precedes every mutation) when `a` is a registered key and a path
exists from `b` to `a`; otherwise record the edge and register both
nodes. -/
def addRelation (s : OrderedStructure α) (a b : α) :
    Except String Unit × OrderedStructure α :=
  if a ∈ s.graph.map Prod.fst ∧ hasPath s b a = true then
    (.error "violates strict ordering", s)
  else
    (.ok (),
     { graph := graphSetdefault (graphAddSucc s.graph a b) b
       nodes := setAdd (setAdd s.nodes a) b })

/-- `_OrderedStructure._topological_sort_util`: mark the node visited,
recurse into unvisited neighbors, then append the node to the
postorder stack.  Fuel as in `hasPathAux`. -/
def topoUtil (g : List (α × List α)) :
    Nat → α → List α × List α → List α × List α
  | 0, _, vs => vs
  | fuel + 1, node, vs =>
      let acc :=
        (alistGetD g node).foldl
          (fun acc neighbor =>
            if neighbor ∈ acc.1 then acc
            else topoUtil g fuel neighbor acc)
          (node :: vs.1, vs.2)
      (acc.1, acc.2 ++ [node])

/-- The body of `_topological_sort_util`'s neighbor loop, as a fold
step at the given remaining fuel. -/
def topoStep (g : List (α × List α)) (fuel : Nat)
    (acc : List α × List α) (neighbor : α) : List α × List α :=
  if neighbor ∈ acc.1 then acc
  else topoUtil g fuel neighbor acc

/-- `_OrderedStructure.topological_sort()`: run the util over every
unvisited node (in node insertion order) and reverse the postorder
stack. -/
def topologicalSort (s : OrderedStructure α) : List α :=
  (s.nodes.foldl
      (fun acc node =>
        if node ∈ acc.1 then acc
        else topoUtil s.graph (s.graph.length + 1) node acc)
      ([], [])).2.reverse

/-- Run a sequence of `add_relation` calls on a fresh structure; a
rejected call (which raises before mutating) leaves the structure
unchanged and the run continues. -/
def runOps (ops : List (α × α)) : OrderedStructure α :=
  ops.foldl (fun s p => (addRelation s p.1 p.2).2) emptyOS

end OrderedStructureModel

section OrderedStructureInvariants

variable {α : Type} [DecidableEq α]

/-- The registered keys of the graph dict (`self._graph.keys()`). -/
def keysG (g : List (α × List α)) : List α := g.map Prod.fst

/-- The keys of `g` outside `visited`, as a finset: the measure showing
the DFS fuel suffices (each recursive call moves a fresh key into
`visited`). -/
def keysOutside (g : List (α × List α)) (visited : List α) : Finset α :=
  (keysG g).toFinset \ visited.toFinset

/-- Invariant of every reachable `_OrderedStructure` state: every edge
endpoint is a registered graph key, the node set coincides with the
key set, and there is no cycle through two distinct nodes (the code
does accept self-loops, which is the subject of the self-relation
claims). -/
def OSInv (s : OrderedStructure α) : Prop :=
  (∀ x y, EdgeG s.graph x y → x ∈ keysG s.graph ∧ y ∈ keysG s.graph)
  ∧ (∀ x, x ∈ s.nodes ↔ x ∈ keysG s.graph)
  ∧ (∀ x y, EdgeG s.graph x y → x ≠ y →
      ¬ Relation.TransGen (EdgeG s.graph) y x)

/-- A postorder stack is good when every element's non-self successors
appear strictly earlier in it. -/
def GoodStack (g : List (α × List α)) (st : List α) : Prop :=
  ∀ i x, st.get? i = some x → ∀ y, EdgeG g x y → x ≠ y →
    ∃ j, j < i ∧ st.get? j = some y

/-- Invariant of the accumulator `(vis, st)` while
`_topological_sort_util(node, visited, stack)` folds over `node`'s
neighbors: the call state plus the fact that the only possibly
unfinished visited nodes are the pre-call grays and `node` itself. -/
def TopoAcc (g : List (α × List α)) (node : α) (visited stack : List α)
    (vis st : List α) : Prop :=
  node ∈ vis ∧ (∀ x ∈ visited, x ∈ vis)
  ∧ (∃ d, st = stack ++ d) ∧ st.Nodup ∧ (∀ x ∈ st, x ∈ vis)
  ∧ GoodStack g st ∧ node ∉ st
  ∧ (∀ x ∈ st, x ∈ stack ∨ x ∉ visited)
  ∧ (∀ v ∈ vis, v ∉ st → (v ∈ visited ∧ v ∉ stack) ∨ v = node)

end OrderedStructureInvariants

/-! Concrete inputs used by the closed evaluation, counterexample and
witness theorems below. -/

/-- A fresh known-depth table: every entry at its default `math.inf`. -/
def kdTop : String → ℕ∞ := fun _ => ⊤

/-- A known-depth table with `"a"` at depth 1. -/
def kdA : String → ℕ∞ := Function.update kdTop "a" 1

/-- A single specifier-range requirement information entry for `"x"`
(candidate lookup `None`). -/
def infoRangeOnly : List PreferenceInformation :=
  [⟨.specifier "x" "x" ⟨[⟨.ge, "1"⟩]⟩, none⟩]

/-- The `test_provider.py` "pinned-package" row: one associated
requirement `pinned-package==1.0` with no parent. -/
def infoPinnedPackage : List PreferenceInformation :=
  [⟨.specifier "pinned-package" "pinned-package" ⟨[⟨.eq, "1.0"⟩]⟩, none⟩]

/-- Information for `"a"` whose single entry's parent candidate is
itself named `"a"`. -/
def infoSelfParent : List PreferenceInformation :=
  [⟨.specifier "a" "a" ⟨[]⟩, some ⟨"a"⟩⟩]

/-- Information for `"a"` with a single root entry (`None` parent). -/
def infoRootParent : List PreferenceInformation :=
  [⟨.specifier "a" "a" ⟨[]⟩, none⟩]

/-- Information for `"a"` whose single entry has parent `"b"`. -/
def infoParentB : List PreferenceInformation :=
  [⟨.specifier "a" "a" ⟨[]⟩, some ⟨"b"⟩⟩]

/-- One backtrack cause whose requirement `dep<2.0` (raw name `dep`,
canonical project name `Dep`) carries an upper bound. -/
def causesDep : List PreferenceInformation :=
  [⟨.specifier "dep" "Dep" ⟨[⟨.lt, "2.0"⟩]⟩, none⟩]

lemma op_take2_iff (op : Op) :
    ((Op.str op).take 2 == "==") = true ↔ op = Op.eq ∨ op = Op.arbitraryEq := by
  cases op <;> decide

lemma pinnedOf_iff (info : List PreferenceInformation) :
    pinnedOf info = true ↔
      ∃ op ∈ operatorsOf info, op = Op.eq ∨ op = Op.arbitraryEq := by
  simp only [pinnedOf, List.any_eq_true, op_take2_iff]

lemma unfreeOf_iff (info : List PreferenceInformation) :
    unfreeOf info = true ↔ operatorsOf info ≠ [] := by
  simp [unfreeOf, List.isEmpty_iff]

lemma foldr_min_le {l : List ℕ∞} {a : ℕ∞} (h : a ∈ l) :
    l.foldr min ⊤ ≤ a := by
  induction l with
  | nil => cases h
  | cons b t ih =>
      rcases List.mem_cons.mp h with rfl | ht
      · exact min_le_left _ _
      · exact le_trans (min_le_right _ _) (ih ht)

lemma foldr_min_mem {l : List ℕ∞} (h : l ≠ []) :
    l.foldr min ⊤ ∈ l := by
  induction l with
  | nil => exact absurd rfl h
  | cons b t ih =>
      cases t with
      | nil => simp
      | cons c t' =>
          have hstep : (b :: c :: t').foldr min ⊤ = min b ((c :: t').foldr min ⊤) := rfl
          rcases min_choice b ((c :: t').foldr min ⊤) with hm | hm
          · rw [hstep, hm]; exact List.mem_cons_self _ _
          · rw [hstep, hm]; exact List.mem_cons_of_mem _ (ih (by simp))

/-- C3: `get_preference` returns exactly the 8-tuple
`(not requires_python, not direct, not pinned, not backtrack_cause,
inferred_depth, requested_order, not unfree, identifier)`, where
`pinned` holds iff some collected operator is `==` or `===` and
`unfree` holds iff at least one operator was collected.  (The tuple is
consumed by the external solver under lexicographic ascending order;
only its construction lives in this code.) -/
theorem claim_C3_preference_key (ur : List (String × Nat))
    (kd : String → ℕ∞) (identifier : String)
    (info : List PreferenceInformation)
    (causes : List PreferenceInformation) :
    (getPreference ur kd identifier info causes).1 =
      [.b (!(identifier == REQUIRES_PYTHON_IDENTIFIER)), .b (!directOf info),
       .b (!pinnedOf info), .b (!isBacktrackCause identifier causes),
       .n (inferredDepthOf ur kd identifier info),
       .n (requestedOrderOf ur identifier), .b (!unfreeOf info),
       .s identifier]
    ∧ (pinnedOf info = true ↔
        ∃ op ∈ operatorsOf info, op = Op.eq ∨ op = Op.arbitraryEq)
    ∧ (unfreeOf info = true ↔ operatorsOf info ≠ []) :=
  ⟨rfl, pinnedOf_iff info, unfreeOf_iff info⟩

/-- C3 witness: at the `pinned-package==1.0` input the pinned flag is
set and characterized by its `==` operator. -/
theorem claim_C3_preference_key_witness :
    pinnedOf infoPinnedPackage = true ∧ unfreeOf infoPinnedPackage = true :=
  ⟨(claim_C3_preference_key [] kdTop "pinned-package" infoPinnedPackage []).2.1.mpr
      ⟨Op.eq, by decide, Or.inl rfl⟩,
   (claim_C3_preference_key [] kdTop "pinned-package" infoPinnedPackage []).2.2.mpr
      (by decide)⟩

/-- C2 (code bug): with a single specifier-range requirement (candidate
lookup `None`) the code still reports `direct = True` — the
`not direct` slot of the key is `False` — because `candidate` is the
tuple produced by `zip(*lookups)`, which is never `None` once any
information exists. -/
theorem claim_C2_direct_bug_eval :
    (infoRangeOnly.map fun i => i.requirement.getCandidateLookup.1) = [none]
    ∧ (getPreference [] kdTop "x" infoRangeOnly []).1.get? 1 =
        some (.b false) :=
  ⟨rfl, rfl⟩

/-- C4 (code bug): at the spec's/test-suite's `pinned-package` example
the code returns the 8-tuple
`(True, False, False, True, 1, 1, False, "pinned-package")` — the
`not direct` slot is `False` (tuple-vs-None slip) and both
`inferred_depth` and `requested_order` are present — not the claimed
7-tuple `(True, True, False, True, 1, False, "pinned-package")`. -/
theorem claim_C4_pinned_example_eval :
    (getPreference [("pinned-package", 1)] kdTop "pinned-package"
        infoPinnedPackage []).1 =
      [.b true, .b false, .b false, .b true, .n 1, .n 1, .b false,
       .s "pinned-package"]
    ∧ (getPreference [("pinned-package", 1)] kdTop "pinned-package"
        infoPinnedPackage []).1 ≠
      [.b true, .b true, .b false, .b true, .n 1, .b false,
       .s "pinned-package"] :=
  ⟨rfl, by decide⟩

/-- C5: the `inferred_depth` component of the preference key is 1 for a
user-requested identifier; otherwise, with information present, it is
the minimum over the entries of (parent's known depth, or 0 for a
`None` parent) plus one — witnessed by being a lower bound attained by
some entry; otherwise it is `∞`; and in every case the computed value
overwrites the known-depth table entry for the identifier, leaving all
other entries unchanged. -/
theorem claim_C5_inferred_depth (ur : List (String × Nat))
    (kd : String → ℕ∞) (identifier : String)
    (info : List PreferenceInformation)
    (causes : List PreferenceInformation) :
    ((getPreference ur kd identifier info causes).1.get? 4 =
        some (.n (inferredDepthOf ur kd identifier info)))
    ∧ ((lookupStr ur identifier).isSome = true →
        inferredDepthOf ur kd identifier info = 1)
    ∧ (lookupStr ur identifier = none → info = [] →
        inferredDepthOf ur kd identifier info = ⊤)
    ∧ (lookupStr ur identifier = none → info ≠ [] →
        (∀ i ∈ info,
          inferredDepthOf ur kd identifier info ≤ parentDepth kd i + 1)
        ∧ ∃ i ∈ info,
            inferredDepthOf ur kd identifier info = parentDepth kd i + 1)
    ∧ (∀ k, (getPreference ur kd identifier info causes).2 k =
        if k = identifier then inferredDepthOf ur kd identifier info
        else kd k) := by
  refine ⟨rfl, ?_, ?_, ?_, ?_⟩
  · intro h
    unfold inferredDepthOf
    cases hl : lookupStr ur identifier with
    | none => rw [hl] at h; simp at h
    | some _ => rfl
  · intro hl hinfo
    simp [inferredDepthOf, hl, hinfo]
  · intro hl hinfo
    have hne : info.isEmpty = false := by
      cases info with
      | nil => exact absurd rfl hinfo
      | cons a t => rfl
    constructor
    · intro i hi
      have hmem : parentDepth kd i ∈ info.map (parentDepth kd) :=
        List.mem_map_of_mem _ hi
      have hle := foldr_min_le hmem
      simp only [inferredDepthOf, hl, hne]
      exact add_le_add_right hle 1
    · have hmapne : info.map (parentDepth kd) ≠ [] := by
        simp [hinfo]
      have hmem := foldr_min_mem hmapne
      rcases List.mem_map.mp hmem with ⟨i, hi, hval⟩
      refine ⟨i, hi, ?_⟩
      simp [inferredDepthOf, hl, hne, hval]
  · intro k
    show Function.update kd identifier
        (inferredDepthOf ur kd identifier info) k = _
    rw [Function.update_apply]

/-- C5 witness: for user-requested `"a"` the depth is 1 and the table
is overwritten at `"a"` only; for non-requested `"a"` with a single
root entry (parent `None`) the depth is `0 + 1`. -/
theorem claim_C5_inferred_depth_witness :
    inferredDepthOf [("a", 1)] kdTop "a" [] = 1
    ∧ (getPreference [("a", 1)] kdTop "a" [] []).2 "a" = 1
    ∧ (getPreference [("a", 1)] kdTop "a" [] []).2 "b" = ⊤
    ∧ inferredDepthOf [] kdTop "a" infoRootParent =
        parentDepth kdTop ⟨.specifier "a" "a" ⟨[]⟩, none⟩ + 1 := by
  have h1 := claim_C5_inferred_depth [("a", 1)] kdTop "a" [] []
  have h2 := claim_C5_inferred_depth [] kdTop "a" infoRootParent []
  have hd1 : inferredDepthOf [("a", 1)] kdTop "a" [] = 1 := h1.2.1 rfl
  refine ⟨hd1, ?_, ?_, ?_⟩
  · rw [h1.2.2.2.2 "a", if_pos rfl, hd1]
  · rw [h1.2.2.2.2 "b", if_neg (by decide)]; rfl
  · rcases (h2.2.2.2.1 rfl (by decide)).2 with ⟨i, hi, hval⟩
    have : i = ⟨.specifier "a" "a" ⟨[]⟩, none⟩ := by
      simpa [infoRootParent] using hi
    rw [this] at hval
    exact hval

section StepEquations

variable {α : Type} [DecidableEq α]

lemma hasPathAux_succ (g : List (α × List α)) (dest : α) (fuel : Nat)
    (src : α) (visited : List α) :
    hasPathAux g dest (fuel + 1) src visited =
      (alistGetD g src).foldl (hasPathStep g dest fuel)
        (false, src :: visited) := rfl

lemma topoUtil_succ (g : List (α × List α)) (fuel : Nat) (node : α)
    (vs : List α × List α) :
    topoUtil g (fuel + 1) node vs =
      (((alistGetD g node).foldl (topoStep g fuel) (node :: vs.1, vs.2)).1,
       ((alistGetD g node).foldl (topoStep g fuel)
         (node :: vs.1, vs.2)).2 ++ [node]) := rfl

end StepEquations

lemma upper_op_iff (op : Op) :
    (Op.str op == "<" || Op.str op == "<=") = true ↔
      op = Op.lt ∨ op = Op.le := by
  cases op <;> decide

lemma mem_upperBounded_aux (x : String)
    (causes : List PreferenceInformation) :
    ∀ acc : Finset String,
      (x ∈ causes.foldl
          (fun acc cause =>
            match cause.requirement with
            | .specifier n pn ir =>
                if ir.specifier.any
                    (fun sp => Op.str sp.operator == "<" ||
                      Op.str sp.operator == "<=")
                then insert n (insert pn acc)
                else acc
            | _ => acc)
          acc
        ↔ x ∈ acc ∨ ∃ c ∈ causes, ∃ n pn ir,
            c.requirement = Requirement.specifier n pn ir ∧
            (∃ sp ∈ ir.specifier,
              sp.operator = Op.lt ∨ sp.operator = Op.le) ∧
            (x = n ∨ x = pn)) := by
  induction causes with
  | nil => intro acc; simp
  | cons c t ih =>
      intro acc
      rcases hc : c.requirement with cand | ⟨n, pn, ir⟩ | specs
      · rw [List.foldl_cons]
        simp only [hc]
        rw [ih acc]
        constructor
        · rintro (h | h)
          · exact Or.inl h
          · exact Or.inr (by
              rcases h with ⟨c', hc', rest⟩
              exact ⟨c', List.mem_cons_of_mem _ hc', rest⟩)
        · rintro (h | ⟨c', hc', n, pn, ir, hreq, hrest⟩)
          · exact Or.inl h
          · rcases List.mem_cons.mp hc' with rfl | hc'
            · rw [hc] at hreq; cases hreq
            · exact Or.inr ⟨c', hc', n, pn, ir, hreq, hrest⟩
      · rw [List.foldl_cons]
        simp only [hc]
        by_cases hub : ir.specifier.any
            (fun sp => Op.str sp.operator == "<" ||
              Op.str sp.operator == "<=") = true
        · rw [if_pos hub, ih]
          have hex : ∃ sp ∈ ir.specifier,
              sp.operator = Op.lt ∨ sp.operator = Op.le := by
            rcases List.any_eq_true.mp hub with ⟨sp, hsp, hop⟩
            exact ⟨sp, hsp, (upper_op_iff _).mp hop⟩
          constructor
          · rintro (h | h)
            · rcases Finset.mem_insert.mp h with hxn | h
              · exact Or.inr ⟨c, List.mem_cons_self _ _, n, pn, ir, hc,
                  hex, Or.inl hxn⟩
              · rcases Finset.mem_insert.mp h with hxpn | h
                · exact Or.inr ⟨c, List.mem_cons_self _ _, n, pn, ir, hc,
                    hex, Or.inr hxpn⟩
                · exact Or.inl h
            · rcases h with ⟨c', hc', rest⟩
              exact Or.inr ⟨c', List.mem_cons_of_mem _ hc', rest⟩
          · rintro (h | ⟨c', hc', n', pn', ir', hreq, hub', hx⟩)
            · exact Or.inl (Finset.mem_insert_of_mem
                (Finset.mem_insert_of_mem h))
            · rcases List.mem_cons.mp hc' with rfl | hc'
              · rw [hc] at hreq
                injection hreq with h1 h2 h3
                subst h1; subst h2
                rcases hx with rfl | rfl
                · exact Or.inl (Finset.mem_insert_self _ _)
                · exact Or.inl (Finset.mem_insert_of_mem
                    (Finset.mem_insert_self _ _))
              · exact Or.inr ⟨c', hc', n', pn', ir', hreq, hub', hx⟩
        · rw [if_neg hub, ih]
          constructor
          · rintro (h | h)
            · exact Or.inl h
            · rcases h with ⟨c', hc', rest⟩
              exact Or.inr ⟨c', List.mem_cons_of_mem _ hc', rest⟩
          · rintro (h | ⟨c', hc', n', pn', ir', hreq, hub', hx⟩)
            · exact Or.inl h
            · rcases List.mem_cons.mp hc' with rfl | hc'
              · rw [hc] at hreq
                injection hreq with h1 h2 h3
                subst h1; subst h3
                exfalso
                apply hub
                rcases hub' with ⟨sp, hsp, hop⟩
                exact List.any_eq_true.mpr
                  ⟨sp, hsp, (upper_op_iff _).mpr hop⟩
              · exact Or.inr ⟨c', hc', n', pn', ir', hreq, hub', hx⟩
      · rw [List.foldl_cons]
        simp only [hc]
        rw [ih acc]
        constructor
        · rintro (h | h)
          · exact Or.inl h
          · rcases h with ⟨c', hc', rest⟩
            exact Or.inr ⟨c', List.mem_cons_of_mem _ hc', rest⟩
        · rintro (h | ⟨c', hc', n', pn', ir', hreq, hrest⟩)
          · exact Or.inl h
          · rcases List.mem_cons.mp hc' with rfl | hc'
            · rw [hc] at hreq; cases hreq
            · exact Or.inr ⟨c', hc', n', pn', ir', hreq, hrest⟩

lemma mem_upperBoundedOf (x : String)
    (causes : List PreferenceInformation) :
    x ∈ upperBoundedOf causes ↔
      ∃ c ∈ causes, ∃ n pn ir,
        c.requirement = Requirement.specifier n pn ir ∧
        (∃ sp ∈ ir.specifier,
          sp.operator = Op.lt ∨ sp.operator = Op.le) ∧
        (x = n ∨ x = pn) := by
  rw [upperBoundedOf, mem_upperBounded_aux]
  simp

/-- C6: `unpin_requirement` returns the empty set when there are no
backtrack causes; otherwise a name is returned exactly when it is not
among the caller-supplied identifiers and is the raw name or canonical
project name of some backtrack cause whose requirement is a
specifier-range requirement with an upper-bound (`<` or `<=`)
operator; the degenerate branches (no upper-bounded names, or an empty
difference) all yield the empty set, as the characterization shows. -/
theorem claim_C6_unpin_requirement (identifiers : List String)
    (causes : List PreferenceInformation) :
    (causes = [] → unpinRequirement identifiers causes = ∅)
    ∧ ∀ x, (x ∈ unpinRequirement identifiers causes ↔
        x ∉ identifiers ∧ ∃ c ∈ causes, ∃ n pn ir,
          c.requirement = Requirement.specifier n pn ir ∧
          (∃ sp ∈ ir.specifier,
            sp.operator = Op.lt ∨ sp.operator = Op.le) ∧
          (x = n ∨ x = pn)) := by
  constructor
  · rintro rfl
    rfl
  · intro x
    unfold unpinRequirement
    by_cases hemp : causes.isEmpty = true
    · rw [if_pos hemp]
      have : causes = [] := List.isEmpty_iff.mp hemp
      subst this
      simp
    · rw [if_neg hemp]
      by_cases hub : upperBoundedOf causes = ∅
      · rw [if_pos hub]
        simp only [Finset.not_mem_empty, false_iff]
        rintro ⟨hx, hex⟩
        have : x ∈ upperBoundedOf causes := (mem_upperBoundedOf x causes).mpr hex
        rw [hub] at this
        exact absurd this (Finset.not_mem_empty x)
      · rw [if_neg hub]
        by_cases hdiff : upperBoundedOf causes \ identifiers.toFinset ≠ ∅
        · rw [if_pos hdiff]
          rw [Finset.mem_sdiff, mem_upperBoundedOf, List.mem_toFinset]
          exact and_comm
        · rw [if_neg hdiff]
          push_neg at hdiff
          simp only [Finset.not_mem_empty, false_iff]
          rintro ⟨hx, hex⟩
          have hmem : x ∈ upperBoundedOf causes \ identifiers.toFinset := by
            rw [Finset.mem_sdiff, List.mem_toFinset]
            exact ⟨(mem_upperBoundedOf x causes).mpr hex, hx⟩
          rw [hdiff] at hmem
          exact absurd hmem (Finset.not_mem_empty x)

/-- C6 witness: a cause `dep<2.0` yields both `dep` and `Dep`; names
already excluded by the caller are not returned. -/
theorem claim_C6_unpin_requirement_witness :
    "dep" ∈ unpinRequirement [] causesDep
    ∧ "Dep" ∈ unpinRequirement [] causesDep
    ∧ "dep" ∉ unpinRequirement ["dep", "Dep"] causesDep := by
  refine ⟨?_, ?_, ?_⟩
  · exact ((claim_C6_unpin_requirement [] causesDep).2 "dep").mpr
      ⟨by decide, ⟨.specifier "dep" "Dep" ⟨[⟨.lt, "2.0"⟩]⟩, none⟩,
        by decide, "dep", "Dep", ⟨[⟨.lt, "2.0"⟩]⟩, rfl,
        ⟨⟨.lt, "2.0"⟩, by decide, Or.inl rfl⟩, Or.inl rfl⟩
  · exact ((claim_C6_unpin_requirement [] causesDep).2 "Dep").mpr
      ⟨by decide, ⟨.specifier "dep" "Dep" ⟨[⟨.lt, "2.0"⟩]⟩, none⟩,
        by decide, "dep", "Dep", ⟨[⟨.lt, "2.0"⟩]⟩, rfl,
        ⟨⟨.lt, "2.0"⟩, by decide, Or.inl rfl⟩, Or.inr rfl⟩
  · intro hmem
    exact (((claim_C6_unpin_requirement ["dep", "Dep"] causesDep).2
      "dep").mp hmem).1 (by decide)

lemma partitionBracket_no_sep (s : String)
    (h : (partitionBracket s).2.1 ≠ "[") : (partitionBracket s).1 = s := by
  unfold partitionBracket at h ⊢
  cases hpc : partitionCore [] s.toList with
  | none => rfl
  | some pr =>
      rw [hpc] at h
      obtain ⟨b1, a1⟩ := pr
      exact absurd rfl h

lemma getWithIdentifier_isSome {V : Type} (m : List (String × V))
    (identifier : String) :
    (getWithIdentifier m identifier).isSome = true ↔
      (lookupStr m identifier).isSome = true ∨
        (lookupStr m (partitionBracket identifier).1).isSome = true := by
  unfold getWithIdentifier
  cases h : lookupStr m identifier with
  | some v => simp
  | none =>
      simp only [Option.isSome_none, Bool.false_eq_true, false_or]
      by_cases hb : (partitionBracket identifier).2.1 = "["
      · rw [if_pos hb]
        cases h2 : lookupStr m (partitionBracket identifier).1 with
        | none => simp
        | some v => simp
      · rw [if_neg hb]
        rw [partitionBracket_no_sep identifier hb, h]

/-- C9: upgrade eligibility in `find_matches` — always eligible under
`"eager"`; under `"only-if-needed"` eligible exactly when the
identifier or its extras-stripped base name is a key of the
user-requested mapping; ineligible under every other strategy — and
the `prefers_installed` flag passed to the candidate factory is the
negation of that eligibility. -/
theorem claim_C9_find_matches_upgrade (strategy : String)
    (ur : List (String × Nat)) (constraints : List (String × Constraint))
    (identifier : String) :
    eligibleForUpgrade "eager" ur identifier = true
    ∧ (eligibleForUpgrade "only-if-needed" ur identifier = true ↔
        (lookupStr ur identifier).isSome = true ∨
          (lookupStr ur (partitionBracket identifier).1).isSome = true)
    ∧ (strategy ≠ "eager" → strategy ≠ "only-if-needed" →
        eligibleForUpgrade strategy ur identifier = false)
    ∧ (findMatches strategy ur constraints identifier).prefersInstalled =
        !(eligibleForUpgrade strategy ur identifier) := by
  refine ⟨rfl, ?_, ?_, rfl⟩
  · have hstep : eligibleForUpgrade "only-if-needed" ur identifier =
        (getWithIdentifier ur identifier).isSome := by
      unfold eligibleForUpgrade
      rw [if_neg (by decide), if_pos rfl]
    rw [hstep]
    exact getWithIdentifier_isSome ur identifier
  · intro h1 h2
    unfold eligibleForUpgrade
    rw [if_neg h1, if_neg h2]

/-- C9 witness: under `"to-satisfy-only"` a user-requested identifier
is ineligible and the factory is told to prefer the installed version;
under `"only-if-needed"` the extras identifier `a[extra]` is eligible
through its stripped base name `a`. -/
theorem claim_C9_find_matches_upgrade_witness :
    eligibleForUpgrade "to-satisfy-only" [("a", 0)] "a" = false
    ∧ (findMatches "to-satisfy-only" [("a", 0)] [] "a").prefersInstalled =
        true
    ∧ eligibleForUpgrade "only-if-needed" [("a", 0)] "a[extra]" = true := by
  have h := claim_C9_find_matches_upgrade "to-satisfy-only" [("a", 0)]
    ([] : List (String × Constraint)) "a"
  have h2 := claim_C9_find_matches_upgrade "only-if-needed" [("a", 0)]
    ([] : List (String × Constraint)) "a[extra]"
  have he : eligibleForUpgrade "to-satisfy-only" [("a", 0)] "a" = false :=
    h.2.2.1 (by decide) (by decide)
  refine ⟨he, ?_, ?_⟩
  · rw [h.2.2.2, he]; rfl
  · exact h2.2.1.mpr (Or.inr (by decide))

lemma inferredDepthOf_congr (ur : List (String × Nat))
    (kd1 kd2 : String → ℕ∞) (identifier : String)
    (info : List PreferenceInformation)
    (h : ∀ i ∈ info, parentDepth kd1 i = parentDepth kd2 i) :
    inferredDepthOf ur kd1 identifier info =
      inferredDepthOf ur kd2 identifier info := by
  unfold inferredDepthOf
  cases lookupStr ur identifier with
  | some _ => rfl
  | none =>
      cases hi : info.isEmpty with
      | true => simp
      | false =>
          simp only [Bool.not_false, if_true]
          rw [List.map_congr_left h]

/-- C10 (amended): when no information entry's parent candidate is
named exactly like the identifier, a second immediate `get_preference`
call returns the same key and leaves the known-depth table exactly as
the first call did. -/
theorem claim_C10_repeat_idempotent (ur : List (String × Nat))
    (kd : String → ℕ∞) (identifier : String)
    (info : List PreferenceInformation)
    (causes : List PreferenceInformation)
    (hpar : ∀ i ∈ info, ∀ p, i.parent = some p → p.name ≠ identifier) :
    getPreference ur ((getPreference ur kd identifier info causes).2)
        identifier info causes =
      getPreference ur kd identifier info causes := by
  have hpd : ∀ i ∈ info,
      parentDepth (Function.update kd identifier
        (inferredDepthOf ur kd identifier info)) i = parentDepth kd i := by
    intro i hi
    cases hp : i.parent with
    | none => simp [parentDepth, hp]
    | some p =>
        simp only [parentDepth, hp]
        rw [Function.update_apply, if_neg (hpar i hi p hp)]
  have hdepth : inferredDepthOf ur
      (Function.update kd identifier (inferredDepthOf ur kd identifier info))
      identifier info = inferredDepthOf ur kd identifier info :=
    inferredDepthOf_congr ur _ kd identifier info hpd
  show getPreference ur
      (Function.update kd identifier (inferredDepthOf ur kd identifier info))
      identifier info causes = _
  simp only [getPreference]
  rw [hdepth, Function.update_idem]

/-- C10 witness: with parent `"b"` distinct from identifier `"a"`, the
repeated call is a fixed point. -/
theorem claim_C10_repeat_idempotent_witness :
    getPreference [] ((getPreference [] kdTop "a" infoParentB []).2) "a"
        infoParentB [] =
      getPreference [] kdTop "a" infoParentB [] :=
  claim_C10_repeat_idempotent [] kdTop "a" infoParentB [] (by
    intro i hi p hp
    simp only [infoParentB, List.mem_singleton] at hi
    subst hi
    simp only [Option.some.injEq] at hp
    subst hp
    decide)

/-- C10 counterexample: when the single information entry's parent is
the identifier itself and the identifier already has a finite recorded
depth, the second immediate call returns a different preference key
(the depth component grows from 2 to 3). -/
theorem claim_C10_counterexample :
    (getPreference [] ((getPreference [] kdA "a" infoSelfParent []).2) "a"
        infoSelfParent []).1 ≠
      (getPreference [] kdA "a" infoSelfParent []).1 := by decide

section OrderedStructureLemmas

variable {α : Type} [DecidableEq α]

lemma mem_setAdd {l : List α} {a x : α} :
    x ∈ setAdd l a ↔ x ∈ l ∨ x = a := by
  unfold setAdd
  by_cases h : a ∈ l
  · rw [if_pos h]
    constructor
    · exact Or.inl
    · rintro (hx | rfl)
      · exact hx
      · exact h
  · rw [if_neg h]
    simp [List.mem_append]

lemma graphAddSucc_cons_eq (k : α) (vs : List α)
    (rest : List (α × List α)) (a b : α) (hk : k = a) :
    graphAddSucc ((k, vs) :: rest) a b = (k, setAdd vs b) :: rest := by
  simp [graphAddSucc, hk]

lemma graphAddSucc_cons_ne (k : α) (vs : List α)
    (rest : List (α × List α)) (a b : α) (hk : ¬k = a) :
    graphAddSucc ((k, vs) :: rest) a b = (k, vs) :: graphAddSucc rest a b := by
  simp [graphAddSucc, hk]

lemma alistGetD_graphAddSucc_self (g : List (α × List α)) (a b : α) :
    alistGetD (graphAddSucc g a b) a = setAdd (alistGetD g a) b := by
  induction g with
  | nil => simp [graphAddSucc, alistGetD, setAdd]
  | cons e rest ih =>
      obtain ⟨k, vs⟩ := e
      by_cases hk : k = a
      · rw [graphAddSucc_cons_eq k vs rest a b hk]
        simp only [alistGetD]
        rw [if_pos hk, if_pos hk]
      · rw [graphAddSucc_cons_ne k vs rest a b hk]
        simp only [alistGetD]
        rw [if_neg hk, if_neg hk]
        exact ih

lemma alistGetD_graphAddSucc_ne (g : List (α × List α)) {a x : α} (b : α)
    (h : x ≠ a) :
    alistGetD (graphAddSucc g a b) x = alistGetD g x := by
  have hax : ¬(a = x) := fun he => h he.symm
  induction g with
  | nil =>
      show (if a = x then [b] else alistGetD [] x) = alistGetD [] x
      rw [if_neg hax]
  | cons e rest ih =>
      obtain ⟨k, vs⟩ := e
      by_cases hk : k = a
      · rw [graphAddSucc_cons_eq k vs rest a b hk]
        simp only [alistGetD]
        have hkx : ¬(k = x) := fun he => hax (hk ▸ he)
        rw [if_neg hkx, if_neg hkx]
      · rw [graphAddSucc_cons_ne k vs rest a b hk]
        simp only [alistGetD]
        by_cases hkx : k = x
        · rw [if_pos hkx, if_pos hkx]
        · rw [if_neg hkx, if_neg hkx]
          exact ih

lemma alistGetD_nil_of_not_key {g : List (α × List α)} {x : α}
    (h : x ∉ keysG g) : alistGetD g x = [] := by
  induction g with
  | nil => rfl
  | cons e rest ih =>
      obtain ⟨k, vs⟩ := e
      have hk : ¬(k = x) := by
        intro he
        exact h (by simp [keysG, he])
      have hrest : x ∉ keysG rest := by
        intro hr
        apply h
        simp only [keysG, List.map_cons, List.mem_cons]
        exact Or.inr (by simpa [keysG] using hr)
      simp only [alistGetD]
      rw [if_neg hk]
      exact ih hrest

lemma alistGetD_append_nilval (g : List (α × List α)) (b x : α) :
    alistGetD (g ++ [(b, [])]) x = alistGetD g x := by
  induction g with
  | nil =>
      show (if b = x then [] else alistGetD [] x) = alistGetD [] x
      by_cases hb : b = x
      · rw [if_pos hb]; rfl
      · rw [if_neg hb]
  | cons e rest ih =>
      obtain ⟨k, vs⟩ := e
      simp only [List.cons_append, alistGetD]
      by_cases hk : k = x
      · rw [if_pos hk, if_pos hk]
      · rw [if_neg hk, if_neg hk]
        exact ih

lemma alistGetD_graphSetdefault (g : List (α × List α)) (b x : α) :
    alistGetD (graphSetdefault g b) x = alistGetD g x := by
  unfold graphSetdefault
  by_cases h : b ∈ g.map Prod.fst
  · rw [if_pos h]
  · rw [if_neg h, alistGetD_append_nilval]

lemma mem_keysG_graphAddSucc {g : List (α × List α)} {a b x : α} :
    x ∈ keysG (graphAddSucc g a b) ↔ x ∈ keysG g ∨ x = a := by
  induction g with
  | nil =>
      show x ∈ keysG [(a, [b])] ↔ x ∈ keysG [] ∨ x = a
      simp [keysG]
  | cons e rest ih =>
      obtain ⟨k, vs⟩ := e
      by_cases hk : k = a
      · rw [graphAddSucc_cons_eq k vs rest a b hk]
        simp only [keysG, List.map_cons, List.mem_cons] at ih ⊢
        constructor
        · rintro (h | h)
          · exact Or.inl (Or.inl h)
          · exact Or.inl (Or.inr h)
        · rintro ((h | h) | rfl)
          · exact Or.inl h
          · exact Or.inr h
          · exact Or.inl hk.symm
      · rw [graphAddSucc_cons_ne k vs rest a b hk]
        simp only [keysG, List.map_cons, List.mem_cons] at ih ⊢
        rw [ih]
        tauto

lemma mem_keysG_graphSetdefault {g : List (α × List α)} {b x : α} :
    x ∈ keysG (graphSetdefault g b) ↔ x ∈ keysG g ∨ x = b := by
  unfold graphSetdefault
  by_cases h : b ∈ g.map Prod.fst
  · rw [if_pos h]
    constructor
    · exact Or.inl
    · rintro (hx | rfl)
      · exact hx
      · exact h
  · rw [if_neg h]
    simp [keysG, List.mem_append]

/-- The graph produced by a successful `add_relation s a b`. -/
lemma EdgeG_addGraph (g : List (α × List α)) (a b x y : α) :
    EdgeG (graphSetdefault (graphAddSucc g a b) b) x y ↔
      EdgeG g x y ∨ (x = a ∧ y = b) := by
  unfold EdgeG
  rw [alistGetD_graphSetdefault]
  by_cases hx : x = a
  · subst hx
    rw [alistGetD_graphAddSucc_self, mem_setAdd]
    constructor
    · rintro (h | rfl)
      · exact Or.inl h
      · exact Or.inr ⟨rfl, rfl⟩
    · rintro (h | ⟨-, rfl⟩)
      · exact Or.inl h
      · exact Or.inr rfl
  · rw [alistGetD_graphAddSucc_ne g b hx]
    constructor
    · exact Or.inl
    · rintro (h | ⟨rfl, rfl⟩)
      · exact h
      · exact absurd rfl hx

lemma mem_keysG_addGraph {g : List (α × List α)} {a b x : α} :
    x ∈ keysG (graphSetdefault (graphAddSucc g a b) b) ↔
      x ∈ keysG g ∨ x = a ∨ x = b := by
  rw [mem_keysG_graphSetdefault, mem_keysG_graphAddSucc]
  tauto

end OrderedStructureLemmas

section HasPathLemmas

variable {α : Type} [DecidableEq α]

lemma foldl_hasPathStep_frozen (g : List (α × List α)) (dest : α)
    (fuel : Nat) (ns : List α) :
    ∀ acc : Bool × List α, acc.1 = true →
      ns.foldl (hasPathStep g dest fuel) acc = acc := by
  induction ns with
  | nil => intro acc _; rfl
  | cons n t ih =>
      intro acc hacc
      rw [List.foldl_cons]
      have hstep : hasPathStep g dest fuel acc n = acc := by
        unfold hasPathStep
        rw [if_pos hacc]
      rw [hstep]
      exact ih acc hacc

lemma foldl_hasPathStep_dest_mem (g : List (α × List α)) (dest : α)
    (fuel : Nat) (ns : List α) (hd : dest ∈ ns) :
    ∀ acc : Bool × List α,
      (ns.foldl (hasPathStep g dest fuel) acc).1 = true := by
  induction ns with
  | nil => cases hd
  | cons n t ih =>
      intro acc
      rw [List.foldl_cons]
      cases hacc : acc.1 with
      | true =>
          rw [show hasPathStep g dest fuel acc n = acc by
            unfold hasPathStep; rw [if_pos hacc]]
          rw [foldl_hasPathStep_frozen g dest fuel t acc hacc]
          exact hacc
      | false =>
          by_cases hn : n = dest
          · have hstep : hasPathStep g dest fuel acc n = (true, acc.2) := by
              unfold hasPathStep
              rw [if_neg (by rw [hacc]; exact Bool.false_ne_true),
                if_pos hn]
            rw [hstep,
              foldl_hasPathStep_frozen g dest fuel t (true, acc.2) rfl]
          · have hdt : dest ∈ t := by
              rcases List.mem_cons.mp hd with heq | h
              · exact absurd heq.symm hn
              · exact h
            exact ih hdt _

lemma hasPath_of_edge (s : OrderedStructure α) {x y : α}
    (h : EdgeG s.graph x y) : hasPath s x y = true := by
  unfold hasPath
  rw [hasPathAux_succ]
  exact foldl_hasPathStep_dest_mem s.graph y s.graph.length _ h _

/-- The two branches of `add_relation`. -/
lemma addRelation_cases (s : OrderedStructure α) (a b : α) :
    (a ∈ keysG s.graph ∧ hasPath s b a = true ∧
      addRelation s a b = (.error "violates strict ordering", s))
    ∨ (¬(a ∈ keysG s.graph ∧ hasPath s b a = true) ∧
      addRelation s a b = (.ok (),
        ⟨graphSetdefault (graphAddSucc s.graph a b) b,
         setAdd (setAdd s.nodes a) b⟩)) := by
  unfold addRelation
  by_cases hc : a ∈ s.graph.map Prod.fst ∧ hasPath s b a = true
  · rw [if_pos hc]
    exact Or.inl ⟨hc.1, hc.2, rfl⟩
  · rw [if_neg hc]
    exact Or.inr ⟨hc, rfl⟩

end HasPathLemmas

/-- C1 (code bug): on a fresh structure, `add_relation(0, 0)` is
accepted — the `a in self._graph` guard short-circuits the cycle check
for an unregistered node — and it records the self-loop `0 → 0`,
after which the graph has a cycle (`TransGen` of its edge relation
relates 0 to itself), contradicting the claimed always-acyclic
invariant and the claimed rejection of `add_relation(a, a)`. -/
theorem claim_C1_self_relation_accepted :
    (addRelation (emptyOS (α := Nat)) 0 0).1 = Except.ok ()
    ∧ EdgeG ((addRelation (emptyOS (α := Nat)) 0 0).2).graph 0 0
    ∧ Relation.TransGen
        (EdgeG ((addRelation (emptyOS (α := Nat)) 0 0).2).graph) 0 0 :=
  ⟨rfl, by decide, Relation.TransGen.single (by decide)⟩

/-- C7 (amended, distinct nodes): for `a ≠ b`, on any
edge-endpoint-registered state, after `add_relation(a, b)` succeeds a
subsequent `add_relation(b, a)` fails with the ordering-violation
error and returns the structure unchanged, which still contains the
`a → b` edge and no `b → a` edge. -/
theorem claim_C7_reverse_rejected (s : OrderedStructure Nat) (a b : Nat)
    (hwf : ∀ x y, EdgeG s.graph x y →
      x ∈ keysG s.graph ∧ y ∈ keysG s.graph)
    (hne : a ≠ b) (s' : OrderedStructure Nat)
    (hadd : addRelation s a b = (Except.ok (), s')) :
    (addRelation s' b a).1 = Except.error "violates strict ordering"
    ∧ (addRelation s' b a).2 = s'
    ∧ EdgeG s'.graph a b ∧ ¬ EdgeG s'.graph b a := by
  rcases addRelation_cases s a b with ⟨_, _, heq⟩ | ⟨hc, heq⟩
  · rw [heq] at hadd
    simp at hadd
  · rw [heq] at hadd
    have hs' : s' = ⟨graphSetdefault (graphAddSucc s.graph a b) b,
        setAdd (setAdd s.nodes a) b⟩ := by
      injection hadd with h1 h2
      exact h2.symm
    subst hs'
    have hedge_ab : EdgeG (graphSetdefault (graphAddSucc s.graph a b) b)
        a b := (EdgeG_addGraph s.graph a b a b).mpr (Or.inr ⟨rfl, rfl⟩)
    have hnot_ba : ¬ EdgeG (graphSetdefault (graphAddSucc s.graph a b) b)
        b a := by
      intro hba
      rcases (EdgeG_addGraph s.graph a b b a).mp hba with hold | ⟨hba1, -⟩
      · exact hc ⟨(hwf b a hold).2, hasPath_of_edge s hold⟩
      · exact hne hba1.symm
    have hbkey : b ∈ keysG (graphSetdefault (graphAddSucc s.graph a b) b) :=
      mem_keysG_addGraph.mpr (Or.inr (Or.inr rfl))
    have hpath : hasPath
        (⟨graphSetdefault (graphAddSucc s.graph a b) b,
          setAdd (setAdd s.nodes a) b⟩ : OrderedStructure Nat) a b = true :=
      hasPath_of_edge _ hedge_ab
    rcases addRelation_cases
        (⟨graphSetdefault (graphAddSucc s.graph a b) b,
          setAdd (setAdd s.nodes a) b⟩ : OrderedStructure Nat) b a with
      ⟨_, _, heq2⟩ | ⟨hc2, _⟩
    · rw [heq2]
      exact ⟨rfl, rfl, hedge_ab, hnot_ba⟩
    · exact absurd ⟨hbkey, hpath⟩ hc2

/-- C7 counterexample (as stated, over all nodes): with `a = b = 0` on
a fresh structure, `add_relation(0, 0)` succeeds, the subsequent
`add_relation(0, 0)` fails, yet the graph does contain a `b → a`
edge (the recorded self-loop), so the "no b→a edge" part of the claim
fails. -/
theorem claim_C7_counterexample :
    (addRelation (emptyOS (α := Nat)) 0 0).1 = Except.ok ()
    ∧ (addRelation ((addRelation (emptyOS (α := Nat)) 0 0).2) 0 0).1 =
        Except.error "violates strict ordering"
    ∧ EdgeG ((addRelation (emptyOS (α := Nat)) 0 0).2).graph 0 0 :=
  ⟨rfl, rfl, by decide⟩

/-- C7 witness: the amended theorem applied to `add_relation(0, 1)` on
a fresh structure. -/
theorem claim_C7_reverse_rejected_witness :
    (addRelation (⟨[(0, [1]), (1, [])], [0, 1]⟩ : OrderedStructure Nat)
        1 0).1 = Except.error "violates strict ordering"
    ∧ (addRelation (⟨[(0, [1]), (1, [])], [0, 1]⟩ : OrderedStructure Nat)
        1 0).2 = ⟨[(0, [1]), (1, [])], [0, 1]⟩
    ∧ EdgeG ([(0, [1]), (1, [])] : List (Nat × List Nat)) 0 1
    ∧ ¬ EdgeG ([(0, [1]), (1, [])] : List (Nat × List Nat)) 1 0 :=
  claim_C7_reverse_rejected emptyOS 0 1
    (fun x y h => absurd h (List.not_mem_nil y)) (by decide)
    ⟨[(0, [1]), (1, [])], [0, 1]⟩ rfl

section ReachabilityLemmas

variable {α : Type} [DecidableEq α]

lemma keysOutside_card_lt (g : List (α × List α)) (vis other : List α)
    (m : α) (hsub : ∀ x ∈ other, x ∈ vis) (hmk : m ∈ keysG g)
    (hmv : m ∉ vis) :
    (keysOutside g (m :: vis)).card < (keysOutside g other).card := by
  apply Finset.card_lt_card
  rw [Finset.ssubset_def]
  constructor
  · intro x hx
    rw [keysOutside, Finset.mem_sdiff, List.mem_toFinset] at hx ⊢
    obtain ⟨hk, hnv⟩ := hx
    refine ⟨hk, ?_⟩
    rw [List.mem_toFinset] at hnv ⊢
    intro hxo
    exact hnv (List.mem_cons_of_mem _ (hsub x hxo))
  · intro hcon
    have hm1 : m ∈ keysOutside g other := by
      rw [keysOutside, Finset.mem_sdiff, List.mem_toFinset,
        List.mem_toFinset]
      exact ⟨hmk, fun ho => hmv (hsub m ho)⟩
    have hm2 := hcon hm1
    rw [keysOutside, Finset.mem_sdiff, List.mem_toFinset,
      List.mem_toFinset] at hm2
    exact hm2.2 (List.mem_cons_self m vis)

lemma keysOutside_card_le_len (g : List (α × List α)) (vis : List α) :
    (keysOutside g vis).card ≤ g.length := by
  have h1 : (keysOutside g vis).card ≤ (keysG g).toFinset.card :=
    Finset.card_le_card (Finset.sdiff_subset)
  have h2 : (keysG g).toFinset.card ≤ (keysG g).length :=
    List.toFinset_card_le _
  have h3 : (keysG g).length = g.length := by simp [keysG]
  omega

/-- Completeness of the shared-`visited` DFS: a `false` answer from a
fresh-enough call means the returned visited set contains `src`, is
closed under edges, and never touches `dest`. -/
lemma hasPathAux_false_spec (g : List (α × List α)) (dest : α)
    (hwf : ∀ x y, EdgeG g x y → y ∈ keysG g) :
    ∀ (fuel : Nat) (src : α) (visited res : List α),
      (keysOutside g (src :: visited)).card < fuel →
      hasPathAux g dest fuel src visited = (false, res) →
      (∀ x ∈ visited, x ∈ res) ∧ src ∈ res ∧
        (∀ v ∈ res, v ∉ visited → ∀ w, EdgeG g v w →
          w ≠ dest ∧ w ∈ res) := by
  intro fuel
  induction fuel with
  | zero =>
      intro src visited res hm hrun
      exact absurd hm (Nat.not_lt_zero _)
  | succ f ihf =>
      intro src visited res hm hrun
      rw [hasPathAux_succ] at hrun
      have key : ∀ (ns : List α), (∀ n ∈ ns, EdgeG g src n) →
          ∀ (vis res' : List α),
            (∀ x ∈ src :: visited, x ∈ vis) →
            (∀ v ∈ vis, v ∉ visited → v ≠ src →
              ∀ w, EdgeG g v w → w ≠ dest ∧ w ∈ vis) →
            ns.foldl (hasPathStep g dest f) (false, vis) = (false, res') →
            (∀ x ∈ vis, x ∈ res') ∧
            (∀ v ∈ res', v ∉ visited → v ≠ src →
              ∀ w, EdgeG g v w → w ≠ dest ∧ w ∈ res') ∧
            (∀ n ∈ ns, n ≠ dest ∧ n ∈ res') := by
        intro ns
        induction ns with
        | nil =>
            intro hns vis res' hsub hprop hrun'
            rw [List.foldl_nil] at hrun'
            injection hrun' with h1 h2
            subst h2
            exact ⟨fun x hx => hx, hprop, fun n hn => absurd hn
              (List.not_mem_nil n)⟩
        | cons n t iht =>
            intro hns vis res' hsub hprop hrun'
            rw [List.foldl_cons] at hrun'
            have hstep : hasPathStep g dest f (false, vis) n =
                (if n = dest then (true, vis) else if n ∈ vis
                 then (false, vis) else hasPathAux g dest f n vis) := rfl
            rw [hstep] at hrun'
            by_cases hn : n = dest
            · rw [if_pos hn] at hrun'
              rw [foldl_hasPathStep_frozen g dest f t (true, vis) rfl]
                at hrun'
              simp at hrun'
            · rw [if_neg hn] at hrun'
              by_cases hv : n ∈ vis
              · rw [if_pos hv] at hrun'
                obtain ⟨hmono, hprop', hproc⟩ := iht
                  (fun m hm => hns m (List.mem_cons_of_mem _ hm))
                  vis res' hsub hprop hrun'
                refine ⟨hmono, hprop', ?_⟩
                intro m hm
                rcases List.mem_cons.mp hm with rfl | hmt
                · exact ⟨hn, hmono m hv⟩
                · exact hproc m hmt
              · rw [if_neg hv] at hrun'
                cases hr : hasPathAux g dest f n vis with
                | mk rb rvis =>
                    rw [hr] at hrun'
                    cases rb with
                    | true =>
                        rw [foldl_hasPathStep_frozen g dest f t
                          (true, rvis) rfl] at hrun'
                        simp at hrun'
                    | false =>
                        have hmeas : (keysOutside g (n :: vis)).card < f := by
                          have h1 := keysOutside_card_lt g vis
                            (src :: visited) n hsub
                            (hwf src n (hns n (List.mem_cons_self n t))) hv
                          omega
                        obtain ⟨hvsub, hnmem, hrprop⟩ :=
                          ihf n vis rvis hmeas hr
                        have hsub' : ∀ x ∈ src :: visited, x ∈ rvis :=
                          fun x hx => hvsub x (hsub x hx)
                        have hprop' : ∀ v ∈ rvis, v ∉ visited → v ≠ src →
                            ∀ w, EdgeG g v w → w ≠ dest ∧ w ∈ rvis := by
                          intro v hvr hvv hvs w hw
                          by_cases hvvis : v ∈ vis
                          · obtain ⟨h1, h2⟩ := hprop v hvvis hvv hvs w hw
                            exact ⟨h1, hvsub w h2⟩
                          · exact hrprop v hvr hvvis w hw
                        obtain ⟨hmono, hpropf, hproc⟩ := iht
                          (fun m hm => hns m (List.mem_cons_of_mem _ hm))
                          rvis res' hsub' hprop' hrun'
                        refine ⟨fun x hx => hmono x (hvsub x hx), hpropf, ?_⟩
                        intro m hm
                        rcases List.mem_cons.mp hm with rfl | hmt
                        · exact ⟨hn, hmono m hnmem⟩
                        · exact hproc m hmt
      obtain ⟨hmono, hprop, hproc⟩ := key (alistGetD g src)
        (fun n hn => hn) (src :: visited) res (fun x hx => hx)
        (by
          intro v hv hv1 hv2 w hw
          rcases List.mem_cons.mp hv with rfl | h
          · exact absurd rfl hv2
          · exact absurd h hv1)
        hrun
      refine ⟨fun x hx => hmono x (List.mem_cons_of_mem _ hx),
        hmono src (List.mem_cons_self _ _), ?_⟩
      intro v hv hvv w hw
      by_cases hvs : v = src
      · subst hvs
        exact hproc w hw
      · exact hprop v hv hvv hvs w hw

/-- A `false` answer from `_has_path` really means there is no
(nonempty) path. -/
lemma hasPath_false_not_reach (s : OrderedStructure α)
    (hwf : ∀ x y, EdgeG s.graph x y → y ∈ keysG s.graph)
    {src dest : α} (h : hasPath s src dest = false) :
    ¬ Relation.TransGen (EdgeG s.graph) src dest := by
  unfold hasPath at h
  cases hres : hasPathAux s.graph dest (s.graph.length + 1) src [] with
  | mk b res =>
      rw [hres] at h
      subst h
      have hcard : (keysOutside s.graph [src]).card < s.graph.length + 1 :=
        Nat.lt_succ_of_le (keysOutside_card_le_len s.graph [src])
      obtain ⟨-, hsrc, hclose⟩ := hasPathAux_false_spec s.graph dest hwf
        (s.graph.length + 1) src [] res hcard hres
      intro htg
      have haux : ∀ v, Relation.TransGen (EdgeG s.graph) v dest →
          v ∈ res → False := by
        intro v htv
        induction htv using Relation.TransGen.head_induction_on with
        | base h' =>
            intro hv
            exact (hclose _ hv (List.not_mem_nil _) dest h').1 rfl
        | ih h' htg' ihv =>
            intro hv
            exact ihv ((hclose _ hv (List.not_mem_nil _) _ h').2)
      exact haux src htg hsrc

end ReachabilityLemmas

section PathAlgebra

variable {α : Type}

lemma rtg_drop_self_loop {E : α → α → Prop} {a u v : α}
    (h : Relation.ReflTransGen (fun x y => E x y ∨ (x = a ∧ y = a)) u v) :
    Relation.ReflTransGen E u v := by
  induction h with
  | refl => exact Relation.ReflTransGen.refl
  | tail h' hstep ih =>
      rcases hstep with he | ⟨h1, h2⟩
      · exact ih.tail he
      · rw [h2, ← h1]
        exact ih

lemma rtg_new_edge {E : α → α → Prop} {a b : α}
    (hba : ¬ Relation.ReflTransGen E b a) {u v : α}
    (h : Relation.ReflTransGen (fun x y => E x y ∨ (x = a ∧ y = b)) u v) :
    Relation.ReflTransGen E u v ∨
      (Relation.ReflTransGen E u a ∧ Relation.ReflTransGen E b v) := by
  induction h with
  | refl => exact Or.inl Relation.ReflTransGen.refl
  | tail h' hstep ih =>
      rcases hstep with he | ⟨h1, h2⟩
      · rcases ih with hl | ⟨ha, hb⟩
        · exact Or.inl (hl.tail he)
        · exact Or.inr ⟨ha, hb.tail he⟩
      · rcases ih with hl | ⟨ha, hb⟩
        · exact Or.inr ⟨h1 ▸ hl, h2 ▸ Relation.ReflTransGen.refl⟩
        · exact absurd (h1 ▸ hb) hba

end PathAlgebra

section InvariantPreservation

variable {α : Type} [DecidableEq α]

lemma OSInv_emptyOS : OSInv (emptyOS (α := α)) := by
  refine ⟨?_, ?_, ?_⟩
  · intro x y h
    exact absurd h (List.not_mem_nil y)
  · intro x
    exact Iff.rfl
  · intro x y h
    exact absurd h (List.not_mem_nil y)

lemma OSInv_addRelation (s : OrderedStructure α) (a b : α) (h : OSInv s) :
    OSInv (addRelation s a b).2 := by
  obtain ⟨hwf, hnodes, hnc⟩ := h
  rcases addRelation_cases s a b with ⟨_, _, heq⟩ | ⟨hc, heq⟩
  · rw [heq]
    exact ⟨hwf, hnodes, hnc⟩
  · rw [heq]
    refine ⟨?_, ?_, ?_⟩
    · intro x y hxy
      rcases (EdgeG_addGraph s.graph a b x y).mp hxy with hold | ⟨hxa, hyb⟩
      · obtain ⟨h1, h2⟩ := hwf x y hold
        exact ⟨mem_keysG_addGraph.mpr (Or.inl h1),
          mem_keysG_addGraph.mpr (Or.inl h2)⟩
      · exact ⟨mem_keysG_addGraph.mpr (Or.inr (Or.inl hxa)),
          mem_keysG_addGraph.mpr (Or.inr (Or.inr hyb))⟩
    · intro x
      show x ∈ setAdd (setAdd s.nodes a) b ↔ _
      rw [mem_setAdd, mem_setAdd, hnodes x, mem_keysG_addGraph]
      tauto
    · show ∀ x y, EdgeG (graphSetdefault (graphAddSucc s.graph a b) b) x y →
        x ≠ y → ¬ Relation.TransGen
          (EdgeG (graphSetdefault (graphAddSucc s.graph a b) b)) y x
      by_cases hab : a = b
      · subst hab
        intro x y hxy hne htg
        have hxy' : EdgeG s.graph x y := by
          rcases (EdgeG_addGraph s.graph a a x y).mp hxy with hold | ⟨hxa, hya⟩
          · exact hold
          · exact absurd (hxa.trans hya.symm) hne
        have hrt : Relation.ReflTransGen (EdgeG s.graph) y x := by
          have h1 : Relation.ReflTransGen
              (fun u v => EdgeG s.graph u v ∨ (u = a ∧ v = a)) y x := by
            refine Relation.ReflTransGen.mono ?_ htg.to_reflTransGen
            intro u v huv
            exact (EdgeG_addGraph s.graph a a u v).mp huv
          exact rtg_drop_self_loop h1
        rcases Relation.reflTransGen_iff_eq_or_transGen.mp hrt with
          heq' | htg'
        · exact hne heq'
        · exact hnc x y hxy' hne htg'
      · have hba : ¬ Relation.ReflTransGen (EdgeG s.graph) b a := by
          by_cases hak : a ∈ keysG s.graph
          · have hp : hasPath s b a = false := by
              cases hpv : hasPath s b a with
              | false => rfl
              | true => exact absurd ⟨hak, hpv⟩ hc
            have hnr := hasPath_false_not_reach s
              (fun x y hxy => (hwf x y hxy).2) hp
            intro hr
            rcases Relation.reflTransGen_iff_eq_or_transGen.mp hr with
              heq' | htg'
            · exact hab heq'
            · exact hnr htg'
          · intro hr
            rcases Relation.ReflTransGen.cases_tail hr with heq' | ⟨c, -, hc2⟩
            · exact hab heq'
            · exact hak (hwf c a hc2).2
        intro x y hxy hne htg
        have hrt : Relation.ReflTransGen
            (fun u v => EdgeG s.graph u v ∨ (u = a ∧ v = b)) y x := by
          refine Relation.ReflTransGen.mono ?_ htg.to_reflTransGen
          intro u v huv
          exact (EdgeG_addGraph s.graph a b u v).mp huv
        rcases rtg_new_edge hba hrt with hold | ⟨hya, hbx⟩
        · rcases (EdgeG_addGraph s.graph a b x y).mp hxy with
            hxyold | ⟨hxa, hyb⟩
          · rcases Relation.reflTransGen_iff_eq_or_transGen.mp hold with
              heq' | htg'
            · exact hne heq'
            · exact hnc x y hxyold hne htg'
          · rw [hxa, hyb] at hold
            exact hba hold
        · rcases (EdgeG_addGraph s.graph a b x y).mp hxy with
            hxyold | ⟨hxa, hyb⟩
          · exact hba ((hbx.tail hxyold).trans hya)
          · exact hba (hyb ▸ hya)

lemma OSInv_runOps (ops : List (α × α)) : OSInv (runOps ops) := by
  have haux : ∀ (l : List (α × α)) (s : OrderedStructure α), OSInv s →
      OSInv (l.foldl (fun s p => (addRelation s p.1 p.2).2) s) := by
    intro l
    induction l with
    | nil => intro s hs; exact hs
    | cons p t ih =>
        intro s hs
        rw [List.foldl_cons]
        exact ih _ (OSInv_addRelation s p.1 p.2 hs)
  exact haux ops emptyOS OSInv_emptyOS

lemma EdgeG_mono_addRelation (s : OrderedStructure α) (a b x y : α)
    (h : EdgeG s.graph x y) : EdgeG ((addRelation s a b).2).graph x y := by
  rcases addRelation_cases s a b with ⟨_, _, heq⟩ | ⟨_, heq⟩
  · rw [heq]
    exact h
  · rw [heq]
    exact (EdgeG_addGraph s.graph a b x y).mpr (Or.inl h)

lemma EdgeG_mono_run (ops more : List (α × α)) (x y : α)
    (h : EdgeG (runOps ops).graph x y) :
    EdgeG (runOps (ops ++ more)).graph x y := by
  have : runOps (ops ++ more) =
      more.foldl (fun s p => (addRelation s p.1 p.2).2) (runOps ops) := by
    unfold runOps
    rw [List.foldl_append]
  rw [this]
  clear this
  induction more generalizing ops with
  | nil => exact h
  | cons p t ih =>
      rw [List.foldl_cons]
      have h1 := EdgeG_mono_addRelation (runOps ops) p.1 p.2 x y h
      have h2 : (addRelation (runOps ops) p.1 p.2).2 =
          runOps (ops ++ [p]) := by
        unfold runOps
        rw [List.foldl_append]
        rfl
      rw [h2] at h1 ⊢
      exact ih (ops ++ [p]) h1

end InvariantPreservation

section TopoSortLemmas

variable {α : Type} [DecidableEq α]

lemma GoodStack_append_node (g : List (α × List α)) (st : List α)
    (node : α) (hgs : GoodStack g st)
    (hsucc : ∀ y, EdgeG g node y → node ≠ y → y ∈ st) :
    GoodStack g (st ++ [node]) := by
  intro i x hget y hedge hne
  rcases Nat.lt_or_ge i st.length with hi | hi
  · rw [List.get?_append hi] at hget
    obtain ⟨j, hj, hjget⟩ := hgs i x hget y hedge hne
    refine ⟨j, hj, ?_⟩
    rw [List.get?_append (lt_trans hj hi)]
    exact hjget
  · have hib : i < st.length + 1 := by
      have hlt := (List.get?_eq_some.mp hget).1
      simpa using hlt
    have hieq : i = st.length := le_antisymm (Nat.lt_succ_iff.mp hib) hi
    subst hieq
    rw [List.get?_concat_length] at hget
    injection hget with hx
    subst hx
    have hy := hsucc y hedge hne
    obtain ⟨j, hjget⟩ := List.mem_iff_get?.mp hy
    have hjlt : j < st.length := by
      have := (List.get?_eq_some.mp hjget).1
      exact this
    refine ⟨j, hjlt, ?_⟩
    rw [List.get?_append hjlt]
    exact hjget

/-- Behaviour of `_topological_sort_util`: starting from a state whose
stack is finished (`GoodStack`) and whose unfinished visited nodes all
reach `node`, the util extends the stack to a finished stack
containing `node`, visits nothing twice, and leaves the set of
unfinished visited nodes unchanged. -/
lemma topoUtil_spec (g : List (α × List α))
    (hwf : ∀ x y, EdgeG g x y → x ∈ keysG g ∧ y ∈ keysG g)
    (hnc : ∀ x y, EdgeG g x y → x ≠ y →
      ¬ Relation.TransGen (EdgeG g) y x) :
    ∀ (fuel : Nat) (node : α) (visited stack : List α)
      (r : List α × List α),
      (keysOutside g (node :: visited)).card < fuel →
      node ∉ visited →
      stack.Nodup →
      (∀ x ∈ stack, x ∈ visited) →
      GoodStack g stack →
      (∀ v ∈ visited, v ∉ stack →
        Relation.ReflTransGen (EdgeG g) v node) →
      topoUtil g fuel node (visited, stack) = r →
      (∀ x ∈ visited, x ∈ r.1) ∧ node ∈ r.1 ∧
      (∃ d, r.2 = stack ++ d) ∧ r.2.Nodup ∧
      (∀ x ∈ r.2, x ∈ r.1) ∧ GoodStack g r.2 ∧ node ∈ r.2 ∧
      (∀ x ∈ r.2, x ∈ stack ∨ x ∉ visited) ∧
      (∀ v ∈ r.1, v ∉ r.2 → v ∈ visited ∧ v ∉ stack) := by
  intro fuel
  induction fuel with
  | zero =>
      intro node visited stack r hm
      exact absurd hm (Nat.not_lt_zero _)
  | succ f ihf =>
      intro node visited stack r hm hnode hnd hsv hgs hgray hres
      have key : ∀ (ns : List α), (∀ m ∈ ns, EdgeG g node m) →
          ∀ (vis st : List α),
            TopoAcc g node visited stack vis st →
            ∀ r', ns.foldl (topoStep g f) (vis, st) = r' →
              TopoAcc g node visited stack r'.1 r'.2 ∧
              (∀ x ∈ vis, x ∈ r'.1) ∧ (∃ d, r'.2 = st ++ d) ∧
              (∀ m ∈ ns, m ≠ node → m ∈ r'.2) := by
        intro ns
        induction ns with
        | nil =>
            intro hns vis st hta r' hrun
            rw [List.foldl_nil] at hrun
            subst hrun
            exact ⟨hta, fun x hx => hx, ⟨[], by simp⟩,
              fun m hm => absurd hm (List.not_mem_nil m)⟩
        | cons m t iht =>
            intro hns vis st hta r' hrun
            obtain ⟨ha1, ha2, ⟨d0, hd0⟩, ha4, ha5, ha6, ha7, ha8, ha9⟩ := hta
            have hem : EdgeG g node m := hns m (List.mem_cons_self m t)
            rw [List.foldl_cons] at hrun
            have hstep : topoStep g f (vis, st) m =
                (if m ∈ vis then (vis, st)
                 else topoUtil g f m (vis, st)) := rfl
            rw [hstep] at hrun
            by_cases hmv : m ∈ vis
            · rw [if_pos hmv] at hrun
              have hmst : m ≠ node → m ∈ st := by
                intro hmn
                by_cases hin : m ∈ st
                · exact hin
                · rcases ha9 m hmv hin with ⟨hvv, hvs⟩ | heqn
                  · exfalso
                    have hreach := hgray m hvv hvs
                    rcases Relation.reflTransGen_iff_eq_or_transGen.mp
                      hreach with heq2 | htg2
                    · exact hmn heq2.symm
                    · exact hnc node m hem (fun he => hmn he.symm) htg2
                  · exact absurd heqn hmn
              obtain ⟨hta', hmono, ⟨d1, hd1⟩, hproc⟩ := iht
                (fun x hx => hns x (List.mem_cons_of_mem _ hx))
                vis st ⟨ha1, ha2, ⟨d0, hd0⟩, ha4, ha5, ha6, ha7, ha8, ha9⟩
                r' hrun
              refine ⟨hta', hmono, ⟨d1, hd1⟩, ?_⟩
              intro m' hm'
              rcases List.mem_cons.mp hm' with rfl | hmt
              · intro hmn
                rw [hd1]
                exact List.mem_append_left _ (hmst hmn)
              · exact hproc m' hmt
            · rw [if_neg hmv] at hrun
              cases hr0 : topoUtil g f m (vis, st) with
              | mk rv rs =>
                  rw [hr0] at hrun
                  have hmeas : (keysOutside g (m :: vis)).card < f := by
                    have hsubv : ∀ x ∈ node :: visited, x ∈ vis := by
                      intro x hx
                      rcases List.mem_cons.mp hx with rfl | hx'
                      · exact ha1
                      · exact ha2 x hx'
                    have h1 := keysOutside_card_lt g vis (node :: visited)
                      m hsubv (hwf node m hem).2 hmv
                    omega
                  have hgray' : ∀ v ∈ vis, v ∉ st →
                      Relation.ReflTransGen (EdgeG g) v m := by
                    intro v hvv hvs
                    rcases ha9 v hvv hvs with ⟨h1, h2⟩ | heqn
                    · exact (hgray v h1 h2).tail hem
                    · rw [heqn]
                      exact Relation.ReflTransGen.single hem
                  obtain ⟨hc1, hc2, ⟨d1, hd1⟩, hc4, hc5, hc6, hc7, hc8,
                    hc9⟩ := ihf m vis st (rv, rs) hmeas hmv ha4 ha5 ha6
                      hgray' hr0
                  have hd1' : rs = st ++ d1 := hd1
                  have hta' : TopoAcc g node visited stack rv rs := by
                    refine ⟨hc1 node ha1, fun x hx => hc1 x (ha2 x hx),
                      ⟨d0 ++ d1, by rw [hd1', hd0, List.append_assoc]⟩,
                      hc4, hc5, hc6, ?_, ?_, ?_⟩
                    · intro hmem
                      rcases hc8 node hmem with hin | hout
                      · exact ha7 hin
                      · exact hout ha1
                    · intro x hx
                      rcases hc8 x hx with hin | hout
                      · exact ha8 x hin
                      · exact Or.inr (fun hv => hout (ha2 x hv))
                    · intro v hv1 hv2
                      obtain ⟨h1, h2⟩ := hc9 v hv1 hv2
                      exact ha9 v h1 h2
                  obtain ⟨htaf, hmono, ⟨d2, hd2⟩, hproc⟩ := iht
                    (fun x hx => hns x (List.mem_cons_of_mem _ hx))
                    rv rs hta' r' hrun
                  refine ⟨htaf, fun x hx => hmono x (hc1 x hx),
                    ⟨d1 ++ d2, by rw [hd2, hd1', List.append_assoc]⟩, ?_⟩
                  intro m' hm'
                  rcases List.mem_cons.mp hm' with rfl | hmt
                  · intro _
                    rw [hd2]
                    exact List.mem_append_left _ hc7
                  · exact hproc m' hmt
      rw [topoUtil_succ] at hres
      cases hacc : (alistGetD g node).foldl (topoStep g f)
          (node :: visited, stack) with
      | mk av as =>
          rw [hacc] at hres
          have htinit : TopoAcc g node visited stack (node :: visited)
              stack := by
            refine ⟨List.mem_cons_self _ _,
              fun x hx => List.mem_cons_of_mem _ hx,
              ⟨[], by simp⟩, hnd,
              fun x hx => List.mem_cons_of_mem _ (hsv x hx), hgs,
              fun hcon => hnode (hsv node hcon), fun x hx => Or.inl hx,
              ?_⟩
            intro v hv hvs
            rcases List.mem_cons.mp hv with rfl | hv'
            · exact Or.inr rfl
            · exact Or.inl ⟨hv', hvs⟩
          obtain ⟨⟨hb1, hb2, ⟨d0, hd0⟩, hb4, hb5, hb6, hb7, hb8, hb9⟩,
            hmono, ⟨d1, hd1⟩, hproc⟩ := key (alistGetD g node)
              (fun m hm => hm) (node :: visited) stack htinit (av, as) hacc
          subst hres
          refine ⟨fun x hx => hmono x (List.mem_cons_of_mem _ hx),
            hmono node (List.mem_cons_self _ _),
            ⟨d0 ++ [node], by rw [hd0, List.append_assoc]⟩, ?_, ?_, ?_,
            List.mem_append_right _ (List.mem_cons_self node []),
            ?_, ?_⟩
          · exact List.Nodup.append hb4 (List.nodup_singleton node)
              (fun x hx1 hx2 => hb7 (by
                rw [List.mem_singleton] at hx2
                exact hx2 ▸ hx1))
          · intro x hx
            rcases List.mem_append.mp hx with hx1 | hx2
            · exact hb5 x hx1
            · rw [List.mem_singleton] at hx2
              exact hx2 ▸ hmono node (List.mem_cons_self _ _)
          · exact GoodStack_append_node g as node hb6
              (fun y hy hne => hproc y hy (fun he => hne he.symm))
          · intro x hx
            rcases List.mem_append.mp hx with hx1 | hx2
            · exact hb8 x hx1
            · rw [List.mem_singleton] at hx2
              exact Or.inr (hx2 ▸ hnode)
          · intro v hv1 hv2
            have hvas : v ∉ as := fun hc =>
              hv2 (List.mem_append_left _ hc)
            have hvnode : v ≠ node := by
              intro hc
              apply hv2
              apply List.mem_append_right
              rw [hc]
              exact List.mem_cons_self node []
            rcases hb9 v hv1 hvas with ⟨h1, h2⟩ | heqn
            · exact ⟨h1, h2⟩
            · exact absurd heqn hvnode

end TopoSortLemmas

section TopoSortMain

variable {α : Type} [DecidableEq α]

lemma topologicalSort_eq (s : OrderedStructure α) :
    topologicalSort s =
      (s.nodes.foldl (topoStep s.graph (s.graph.length + 1))
        ([], [])).2.reverse := rfl

lemma topoFold_spec (g : List (α × List α))
    (hwf : ∀ x y, EdgeG g x y → x ∈ keysG g ∧ y ∈ keysG g)
    (hnc : ∀ x y, EdgeG g x y → x ≠ y →
      ¬ Relation.TransGen (EdgeG g) y x) :
    ∀ (nl : List α) (vis st : List α),
      st.Nodup → GoodStack g st → (∀ x, x ∈ vis ↔ x ∈ st) →
      ∀ r, nl.foldl (topoStep g (g.length + 1)) (vis, st) = r →
        r.2.Nodup ∧ GoodStack g r.2 ∧ (∀ x, x ∈ r.1 ↔ x ∈ r.2) ∧
        (∀ x ∈ st, x ∈ r.2) ∧ (∀ n ∈ nl, n ∈ r.2) := by
  intro nl
  induction nl with
  | nil =>
      intro vis st hnd hgs hiff r hrun
      rw [List.foldl_nil] at hrun
      subst hrun
      exact ⟨hnd, hgs, hiff, fun x hx => hx,
        fun n hn => absurd hn (List.not_mem_nil n)⟩
  | cons n t iht =>
      intro vis st hnd hgs hiff r hrun
      rw [List.foldl_cons] at hrun
      have hstep : topoStep g (g.length + 1) (vis, st) n =
          (if n ∈ vis then (vis, st)
           else topoUtil g (g.length + 1) n (vis, st)) := rfl
      rw [hstep] at hrun
      by_cases hnv : n ∈ vis
      · rw [if_pos hnv] at hrun
        obtain ⟨h1, h2, h3, h4, h5⟩ := iht vis st hnd hgs hiff r hrun
        refine ⟨h1, h2, h3, h4, ?_⟩
        intro m hm
        rcases List.mem_cons.mp hm with rfl | hmt
        · exact h4 m ((hiff m).mp hnv)
        · exact h5 m hmt
      · rw [if_neg hnv] at hrun
        cases hr0 : topoUtil g (g.length + 1) n (vis, st) with
        | mk rv rs =>
            rw [hr0] at hrun
            have hmeas : (keysOutside g (n :: vis)).card < g.length + 1 :=
              Nat.lt_succ_of_le (keysOutside_card_le_len g (n :: vis))
            obtain ⟨hc1, hc2, ⟨d, hd⟩, hc4, hc5, hc6, hc7, hc8, hc9⟩ :=
              topoUtil_spec g hwf hnc (g.length + 1) n vis st (rv, rs)
                hmeas hnv hnd (fun x hx => (hiff x).mpr hx) hgs
                (fun v hv hvs => absurd ((hiff v).mp hv) hvs) hr0
            have hiff' : ∀ x, x ∈ rv ↔ x ∈ rs := by
              intro x
              constructor
              · intro hx
                by_cases hxs : x ∈ rs
                · exact hxs
                · obtain ⟨h1, h2⟩ := hc9 x hx hxs
                  exact absurd ((hiff x).mp h1) h2
              · exact hc5 x
            have hd' : rs = st ++ d := hd
            obtain ⟨h1, h2, h3, h4, h5⟩ := iht rv rs hc4 hc6 hiff' r hrun
            refine ⟨h1, h2, h3, ?_, ?_⟩
            · intro x hx
              apply h4
              rw [hd']
              exact List.mem_append_left _ hx
            · intro m hm
              rcases List.mem_cons.mp hm with rfl | hmt
              · exact h4 m hc7
              · exact h5 m hmt

end TopoSortMain

lemma get?_reverse_of_get? {α : Type} {l : List α} {i : Nat} {x : α}
    (h : l.get? i = some x) :
    l.reverse.get? (l.length - 1 - i) = some x := by
  obtain ⟨hlt, hget⟩ := List.get?_eq_some.mp h
  have h1 : l.length - 1 - i < l.reverse.length := by
    rw [List.length_reverse]
    omega
  rw [List.get?_eq_getElem?]
  apply List.getElem?_eq_some.mpr
  refine ⟨h1, ?_⟩
  rw [List.getElem_reverse]
  have h2 : l.length - 1 - (l.length - 1 - i) = i := by omega
  rw [List.getElem_eq_iff, h2, ← List.get?_eq_getElem?]
  exact h

/-- C8 (amended, non-self edges): every edge `a → b` with `a ≠ b` that
was successfully added during a run persists through later calls, and
`topological_sort()` on the resulting structure contains both nodes
and places `a` strictly before `b`.  (Self-loop edges, which the
buggy self-relation acceptance can introduce, are the sole exception —
see the counterexample.) -/
theorem claim_C8_topo_places_before (ops more : List (Nat × Nat))
    (a b : Nat) (hedge : EdgeG (runOps ops).graph a b) (hne : a ≠ b) :
    EdgeG (runOps (ops ++ more)).graph a b ∧
    ∃ i j, i < j ∧
      (topologicalSort (runOps (ops ++ more))).get? i = some a ∧
      (topologicalSort (runOps (ops ++ more))).get? j = some b := by
  have hedge2 : EdgeG (runOps (ops ++ more)).graph a b :=
    EdgeG_mono_run ops more a b hedge
  refine ⟨hedge2, ?_⟩
  obtain ⟨hwf, hnodes, hnc⟩ := OSInv_runOps (α := Nat) (ops ++ more)
  cases hr : (runOps (ops ++ more)).nodes.foldl
      (topoStep (runOps (ops ++ more)).graph
        ((runOps (ops ++ more)).graph.length + 1)) ([], []) with
  | mk fv fs =>
      have hts : topologicalSort (runOps (ops ++ more)) = fs.reverse := by
        rw [topologicalSort_eq, hr]
      obtain ⟨hnd, hgs, hiff, -, hall⟩ :=
        topoFold_spec (runOps (ops ++ more)).graph hwf hnc
          (runOps (ops ++ more)).nodes [] [] List.nodup_nil
          (fun i x hget => by simp at hget)
          (fun x => Iff.rfl) (fv, fs) hr
      have ha : a ∈ fs :=
        hall a ((hnodes a).mpr (hwf a b hedge2).1)
      obtain ⟨ia, hia⟩ := List.mem_iff_get?.mp ha
      obtain ⟨jb, hlt, hjb⟩ := hgs ia a hia b hedge2 hne
      have hia_len : ia < fs.length := (List.get?_eq_some.mp hia).1
      have hjb_len : jb < fs.length := (List.get?_eq_some.mp hjb).1
      refine ⟨fs.length - 1 - ia, fs.length - 1 - jb, by omega, ?_, ?_⟩
      · rw [hts]
        exact get?_reverse_of_get? hia
      · rw [hts]
        exact get?_reverse_of_get? hjb

/-- C8 counterexample (as stated, over all successfully added edges):
the self-loop `0 → 0` is successfully added on a fresh structure, yet
the topological sort `[0]` cannot place `0` strictly before itself. -/
theorem claim_C8_counterexample :
    EdgeG (runOps [((0 : Nat), 0)]).graph 0 0
    ∧ topologicalSort (runOps [((0 : Nat), 0)]) = [0]
    ∧ ¬ ∃ i j : Nat, i < j ∧
        (topologicalSort (runOps [((0 : Nat), 0)])).get? i = some 0 ∧
        (topologicalSort (runOps [((0 : Nat), 0)])).get? j = some 0 := by
  refine ⟨by decide, rfl, ?_⟩
  rintro ⟨i, j, hij, hi, hj⟩
  have hts : topologicalSort (runOps [((0 : Nat), 0)]) = [0] := rfl
  rw [hts] at hj
  have hjl := (List.get?_eq_some.mp hj).1
  simp at hjl
  omega

/-- C8 witness: the run `add_relation(0, 1)` followed by
`add_relation(5, 6)`; the sort places 0 before 1. -/
theorem claim_C8_topo_places_before_witness :
    EdgeG (runOps ([(0, 1)] ++ [(5, 6)] : List (Nat × Nat))).graph 0 1 ∧
    ∃ i j, i < j ∧
      (topologicalSort (runOps ([(0, 1)] ++ [(5, 6)] :
        List (Nat × Nat)))).get? i = some 0 ∧
      (topologicalSort (runOps ([(0, 1)] ++ [(5, 6)] :
        List (Nat × Nat)))).get? j = some 1 :=
  claim_C8_topo_places_before [(0, 1)] [(5, 6)] 0 1 (by decide) (by decide)
